import Mathlib

/-!
Verification of the git-source package resolver (yarn fork).

The JavaScript sources are shallowly embedded: strings become lists of
characters, the JavaScript object used as a ref table becomes an ordered
association list with overwrite-in-place update (matching object key
insertion-order semantics), asynchronous subprocess results (git spawns,
the semver constraint evaluator, the HTTP probe) become explicit oracle
parameters, and thrown errors become Except values.
-/

deriving instance DecidableEq for Except

namespace Yarn

/-- Strings from the JavaScript source are modelled as lists of characters. -/
abbrev Str := List Char

def str (s : String) : Str := s.toList

/-- The characters matched by the JavaScript regex class \s
(ASCII whitespace, NBSP, BOM, Unicode space separators, line terminators). -/
def jsWsChars : Str :=
  [' ', '\t', '\n', '\x0b', '\x0c', '\r', '\u00a0', '\u1680', '\u2000', '\u2001',
   '\u2002', '\u2003', '\u2004', '\u2005', '\u2006', '\u2007', '\u2008', '\u2009',
   '\u200a', '\u2028', '\u2029', '\u202f', '\u205f', '\u3000', '\ufeff']

def isJsWs (c : Char) : Bool := jsWsChars.contains c

/-- The characters the JavaScript regex token `.` does not match
(line terminators). -/
def isJsNl (c : Char) : Bool := c = '\n' ∨ c = '\r' ∨ c = '\u2028' ∨ c = '\u2029'

/-- ASCII lower-casing of one character; models JavaScript
String.prototype.toLowerCase on the ASCII range (the only range the
embedded code distinguishes). -/
def asciiLower (c : Char) : Char :=
  if 'A' ≤ c ∧ c ≤ 'Z' then Char.ofNat (c.toNat + 32) else c

/-- Models JavaScript String.prototype.toLowerCase (ASCII range). -/
def jsToLower (s : Str) : Str := s.map asciiLower

/-- Models JavaScript String.prototype.trim. -/
def jsTrim (s : Str) : Str :=
  ((s.dropWhile isJsWs).reverse.dropWhile isJsWs).reverse

/-- Split on a character, String.prototype.split style. -/
def splitOnCh (sep : Char) : Str → List Str
  | [] => [[]]
  | c :: cs =>
    if c = sep then [] :: splitOnCh sep cs
    else
      match splitOnCh sep cs with
      | [] => [[c]]
      | h :: t => (c :: h) :: t

/-- `endsWithL s suf` models String.prototype.endsWith. -/
def endsWithL (s suf : Str) : Bool := decide (s.reverse.take suf.length = suf.reverse)

/-- The lowercase-hex characters of the regex class [a-f0-9]. -/
def lowHexChars : Str := str "abcdef0123456789"

def isLowHex (c : Char) : Bool := lowHexChars.contains c

/-- The characters of the regex class [a-fA-F0-9]. -/
def hexAnyChars : Str := str "abcdefABCDEF0123456789"

def isHexAny (c : Char) : Bool := hexAnyChars.contains c

def isDigitCh (c : Char) : Bool := '0' ≤ c ∧ c ≤ '9'

/- ### Ref tables

A GitRefs value models the plain JavaScript object used as a map from full
ref name to SHA: an ordered association list, where assignment to an
existing key overwrites in place (preserving first-insertion order, as
`for (const ref in refs)` enumeration does). -/

abbrev GitRefs := List (Str × Str)

def refsLookup (refs : GitRefs) (name : Str) : Option Str :=
  (refs.find? (fun p => p.1 == name)).map (·.2)

def refsUpsert (refs : GitRefs) (name sha : Str) : GitRefs :=
  if refs.any (fun p => p.1 == name) then
    refs.map (fun p => if p.1 == name then (name, sha) else p)
  else
    refs ++ [(name, sha)]

/- ### git-ref-resolver.js -/

/-- isCommitSha: Boolean(target) && /^[a-f0-9]{5,40}$/.test(target) -/
def isCommitSha (target : Str) : Bool :=
  decide (target ≠ []) && decide (5 ≤ target.length) &&
    decide (target.length ≤ 40) && target.all isLowHex

structure ResolvedSha where
  sha : Str
  ref : Option Str
deriving Repr, DecidableEq

/-- The GitRefResolvingInterface: callbacks into the live repository
session (subprocess results), passed as oracles. -/
structure GitOracle where
  resolveDefaultBranch : ResolvedSha
  resolveCommit : Str → Option ResolvedSha

/-- The external semver collaborators consumed as black boxes:
semver.valid(name, looseSemver) truthiness and
config.resolveConstraints(namesList, version). -/
structure SemverOracle where
  valid : Str → Bool
  resolveConstraints : List Str → Str → Option Str

def refTagStr : Str := str "refs/tags/"
def refBranchStr : Str := str "refs/heads/"

/-- tryVersionAsGitCommit from git-ref-resolver.js. -/
def tryVersionAsGitCommit (g : GitOracle) (refs : GitRefs) (version : Str) :
    Option ResolvedSha :=
  let lowercaseVersion := jsToLower version
  if ¬ isCommitSha lowercaseVersion then none
  else
    match refs.find? (fun p => lowercaseVersion.isPrefixOf p.2) with
    | some p => some ⟨p.2, some p.1⟩
    | none => g.resolveCommit lowercaseVersion

/-- tryRef: `if (refs[ref])` — note the JavaScript truthiness test, an
empty-string SHA counts as absent. -/
def tryRef (refs : GitRefs) (ref : Str) : Option ResolvedSha :=
  match refsLookup refs ref with
  | some sha => if sha ≠ [] then some ⟨sha, some ref⟩ else none
  | none => none

def tryVersionAsFullRef (refs : GitRefs) (version : Str) : Option ResolvedSha :=
  if (str "refs/").isPrefixOf version then tryRef refs version else none

def tryVersionAsTagName (refs : GitRefs) (version : Str) : Option ResolvedSha :=
  tryRef refs (refTagStr ++ version)

def tryVersionAsBranchName (refs : GitRefs) (version : Str) : Option ResolvedSha :=
  tryRef refs (refBranchStr ++ version)

structure Names where
  tags : List Str
  branches : List Str

/-- The refNameRegexp match ^refs/(tags|heads)/(.+)$ : the tail must be
nonempty and free of line terminators (the `.` token excludes them). -/
def refNameMatch (ref : Str) : Option (Bool × Str) :=
  if refTagStr.isPrefixOf ref then
    let name := ref.drop refTagStr.length
    if name ≠ [] ∧ name.all (fun c => ¬ isJsNl c) then some (true, name) else none
  else if refBranchStr.isPrefixOf ref then
    let name := ref.drop refBranchStr.length
    if name ≠ [] ∧ name.all (fun c => ¬ isJsNl c) then some (false, name) else none
  else none

def computeSemverNames (sv : SemverOracle) (refs : GitRefs) : Names :=
  refs.foldl
    (fun names p =>
      match refNameMatch p.1 with
      | some (isTag, name) =>
        if sv.valid name then
          if isTag then { names with tags := names.tags ++ [name] }
          else { names with branches := names.branches ++ [name] }
        else names
      | none => names)
    ⟨[], []⟩

def tryVersionAsTagSemver (sv : SemverOracle) (refs : GitRefs) (version : Str)
    (names : Names) : Option ResolvedSha :=
  match sv.resolveConstraints names.tags version with
  | some result =>
    let ref := refTagStr ++ result
    some ⟨(refsLookup refs ref).getD [], some ref⟩
  | none => none

def tryVersionAsBranchSemver (sv : SemverOracle) (refs : GitRefs) (version : Str)
    (names : Names) : Option ResolvedSha :=
  match sv.resolveConstraints names.branches version with
  | some result =>
    let ref := refBranchStr ++ result
    some ⟨(refsLookup refs ref).getD [], some ref⟩
  | none => none

def tryVersionAsSemverRange (sv : SemverOracle) (refs : GitRefs) (version : Str) :
    Option ResolvedSha :=
  let names := computeSemverNames sv refs
  match tryVersionAsTagSemver sv refs version names with
  | some r => some r
  | none => tryVersionAsBranchSemver sv refs version names

def tryWildcardVersionAsDefaultBranch (g : GitOracle) (version : Str) :
    Option ResolvedSha :=
  if version = str "*" then some g.resolveDefaultBranch else none

/-- The loop body of resolveVersion: return the first non-null step result. -/
def runSteps : List (Option ResolvedSha) → Option ResolvedSha
  | [] => none
  | some r :: _ => some r
  | none :: rest => runSteps rest

/-- resolveVersion from git-ref-resolver.js: the empty version resolves the
default branch; otherwise VERSION_RESOLUTION_STEPS run in order
(commit, full ref, tag name, branch name, semver range, wildcard). -/
def resolveVersion (g : GitOracle) (sv : SemverOracle) (refs : GitRefs)
    (version : Str) : Option ResolvedSha :=
  if jsTrim version = [] then some g.resolveDefaultBranch
  else
    runSteps
      [tryVersionAsGitCommit g refs version,
       tryVersionAsFullRef refs version,
       tryVersionAsTagName refs version,
       tryVersionAsBranchName refs version,
       tryVersionAsSemverRange sv refs version,
       tryWildcardVersionAsDefaultBranch g version]

/- ### parseRefs -/

/-- The peeled-tag suffix, the three characters caret, open brace,
close brace. -/
def peeledSuffix : Str := ['^', '\x7b', '\x7d']

/-- Modelled from the spec: `removeSuffix` (util/misc.js, not present in
the provided sources) strips one occurrence of the given suffix from the
end of the string, per the spec's "stripped of a trailing ^ open-brace
close-brace (peeled tag) suffix". -/
def removeSuffix (pattern suffix : Str) : Str :=
  if endsWithL pattern suffix then pattern.take (pattern.length - suffix.length)
  else pattern

/-- A match of gitRefLineRegex ^([a-fA-F0-9]+)\s+(refs\/(?:tags|heads)\/.*)$
against one line: a nonempty hex run, nonempty whitespace, then a ref name
starting with refs/tags/ or refs/heads/ and free of line terminators. -/
def gitRefLineMatch (line : Str) : Option (Str × Str) :=
  let sha := line.takeWhile isHexAny
  let rest := line.dropWhile isHexAny
  let ws := rest.takeWhile isJsWs
  let name := rest.dropWhile isJsWs
  if sha ≠ [] ∧ ws ≠ [] ∧
      (refTagStr.isPrefixOf name ∨ refBranchStr.isPrefixOf name) ∧
      name.all (fun c => ¬ isJsNl c) then
    some (sha, name)
  else none

/-- parseRefs from git-ref-resolver.js. -/
def parseRefs (stdout : Str) : GitRefs :=
  (splitOnCh '\n' stdout).foldl
    (fun refs line =>
      match gitRefLineMatch line with
      | some (sha, tagName) => refsUpsert refs (removeSuffix tagName peeledSuffix) sha
      | none => refs)
    []

/- ### A model of Node's legacy url.parse

Only the fields the embedded code reads (protocol, hostname, pathname,
path) are modelled, for well-formed hosts: scheme extraction and
lower-casing, the `//` authority with user-info at the last `@` and a
trailing numeric port, and the pathname/search split. -/

def isSchemeChar (c : Char) : Bool :=
  ('a' ≤ c ∧ c ≤ 'z') ∨ ('A' ≤ c ∧ c ≤ 'Z') ∨ ('0' ≤ c ∧ c ≤ '9') ∨
    c = '.' ∨ c = '+' ∨ c = '-'

structure ParsedUrl where
  protocol : Option Str
  hostname : Option Str
  pathname : Option Str
  path : Option Str
deriving Repr, DecidableEq

/-- The part of the authority after the last `@` (the host:port part). -/
def afterLastAt (auth : Str) : Str :=
  if auth.contains '@' then (auth.reverse.takeWhile (· ≠ '@')).reverse else auth

/-- Strip a trailing `:digits*` port (the portPattern /:[0-9]*$/). -/
def stripPortEnd (h : Str) : Str :=
  if h.contains ':' ∧ (h.reverse.takeWhile (· ≠ ':')).all isDigitCh then
    ((h.reverse.dropWhile (· ≠ ':')).drop 1).reverse
  else h

def optOfStr (s : Str) : Option Str := if s = [] then none else some s

def joinDots (ps : List Str) : Str := (ps.intersperse (str ".")).flatten

/-- The legacy parser's hostnamePartPattern /^[+a-z0-9A-Z_-]{0,63}$/. -/
def isHostPartChar (c : Char) : Bool :=
  ('a' ≤ c ∧ c ≤ 'z') ∨ ('A' ≤ c ∧ c ≤ 'Z') ∨ ('0' ≤ c ∧ c ≤ '9') ∨
    c = '+' ∨ c = '_' ∨ c = '-'

def hostPartOk (p : Str) : Bool := decide (p.length ≤ 63) && p.all isHostPartChar

/-- The legacy parser's hostname validation: at the first dot-separated
part that fails hostnamePartPattern, keep its valid head (hostnamePartStart)
in the hostname and push the remainder back onto the path. Returns the
valid parts and, when the validation broke off, the text to prepend to the
path. -/
def hostValidateAux : List Str → List Str × Option Str
  | [] => ([], none)
  | p :: ps =>
    if p = [] ∨ hostPartOk p then
      match hostValidateAux ps with
      | (v, r) => (p :: v, r)
    else if p.all (fun c => ¬ isJsNl c) then
      let bit1 := (p.takeWhile isHostPartChar).take 63
      ([bit1], some (joinDots (p.drop bit1.length :: ps)))
    else
      ([], some (joinDots ps))

def urlParse (s : Str) : ParsedUrl :=
  let sch := s.takeWhile isSchemeChar
  let rest0 := s.drop sch.length
  if sch ≠ [] ∧ rest0.head? = some ':' then
    let protocol := jsToLower sch ++ [':']
    let rest := rest0.drop 1
    if (str "//").isPrefixOf rest then
      let afterSlashes := rest.drop 2
      let auth := afterSlashes.takeWhile (fun c => ¬ (c = '/' ∨ c = '?' ∨ c = '#'))
      let afterAuth := afterSlashes.drop auth.length
      let hv := hostValidateAux (splitOnCh '.' (jsToLower (stripPortEnd (afterLastAt auth))))
      let hostname := joinDots hv.1
      let afterAuth2 := hv.2.getD [] ++ afterAuth
      let pathAndSearch := afterAuth2.takeWhile (· ≠ '#')
      let pathname := pathAndSearch.takeWhile (· ≠ '?')
      ⟨some protocol, some hostname, optOfStr pathname, optOfStr pathAndSearch⟩
    else
      let pathAndSearch := rest.takeWhile (· ≠ '#')
      let pathname := pathAndSearch.takeWhile (· ≠ '?')
      ⟨some protocol, none, optOfStr pathname, optOfStr pathAndSearch⟩
  else
    let pathAndSearch := s.takeWhile (· ≠ '#')
    let pathname := pathAndSearch.takeWhile (· ≠ '?')
    ⟨none, none, optOfStr pathname, optOfStr pathAndSearch⟩

/- ### The regexes of git.js as deterministic matchers -/

/-- The regex class [^:@%/\s] of the github-shorthand (also the host part
of GIT_WITHOUT_PROTOCOL_REGEXP, and [^:@\s/%], the same set). -/
def shXCls (c : Char) : Bool := ¬ (c = ':' ∨ c = '@' ∨ c = '%' ∨ c = '/' ∨ isJsWs c)

/-- The first-character class [^:@%/\s.-] of the github shorthand. -/
def shXFirst (c : Char) : Bool := shXCls c ∧ ¬ (c = '.' ∨ c = '-')

/-- Matches the part of the shorthand after `X/`: `[^:@\s/%]+(?:#.*)?$`,
given that at least one repo character has been consumed. -/
def shGo : Str → Bool
  | [] => true
  | c :: cs => (c = '#' && cs.all (fun d => ¬ isJsNl d)) || (shXCls c && shGo cs)

/-- GITHUB_SHORTHAND_REGEXP: ^[^:@%/\s.-][^:@%/\s]*[/][^:@\s/%]+(?:#.*)?$ -/
def shorthandTest (s : Str) : Bool :=
  let x := s.takeWhile (· ≠ '/')
  match s.drop x.length with
  | '/' :: r =>
    (match x with
     | [] => false
     | c :: cs => shXFirst c && cs.all shXCls) &&
    (match r with
     | [] => false
     | d :: ds => shXCls d && shGo ds)
  | _ => false

/-- GIT_WITHOUT_PROTOCOL_REGEXP: ^git@([^:@%/\s]+)[/:].+?$ -/
def gitNoProtoTest (s : Str) : Bool :=
  if (str "git@").isPrefixOf s then
    let r := s.drop 4
    let host := r.takeWhile shXCls
    host ≠ [] &&
      (match r.drop host.length with
       | c :: cs => (c = '/' ∨ c = ':') && cs ≠ [] && cs.all (fun d => ¬ isJsNl d)
       | [] => false)
  else false

/-- The regex class [^@:/] of SCP_LIKE_REGEXP. -/
def scpBCls (c : Char) : Bool := ¬ (c = '@' ∨ c = ':' ∨ c = '/')

structure ScpMatch where
  g1 : Str
  host : Str
  g3 : Str
deriving Repr, DecidableEq

/-- SCP_LIKE_REGEXP: ^git\+ssh:\/\/((?:[^@:\/]+@)?([^@:\/]+):([^/]*).*)
returning the three capture groups. -/
def scpLikeMatch (s : Str) : Option ScpMatch :=
  if (str "git+ssh://").isPrefixOf s then
    let r := s.drop 10
    let b1 := r.takeWhile scpBCls
    let hasUser := b1 ≠ [] ∧ (r.drop b1.length).head? = some '@'
    let userPart : Str := if hasUser then b1 ++ ['@'] else []
    let r2 := if hasUser then r.drop (b1.length + 1) else r
    let host := r2.takeWhile scpBCls
    let afterHost := r2.drop host.length
    if host ≠ [] ∧ afterHost.head? = some ':' then
      let after := afterHost.drop 1
      let g3 := after.takeWhile (· ≠ '/')
      let tail := after.drop g3.length
      some ⟨userPart ++ host ++ [':'] ++ g3 ++ tail.takeWhile (fun c => ¬ isJsNl c),
            host, g3⟩
    else none
  else none

/-- Matches /^.+:/ against a suffix: at least one non-terminator character,
then a colon (used by gitPlusProtoTest after a git+ occurrence). -/
def dpcAux : Str → Bool
  | [] => false
  | c :: cs => c = ':' || (¬ isJsNl c && dpcAux cs)

def dotPlusColon : Str → Bool
  | [] => false
  | c :: cs => ¬ isJsNl c && dpcAux cs

/-- GIT_PROTOCOL_REGEXP: the unanchored test /git\+.+:/. -/
def gitPlusProtoTest : Str → Bool
  | [] => false
  | c :: cs =>
    ((str "git+").isPrefixOf (c :: cs) && dotPlusColon ((c :: cs).drop 4)) ||
      gitPlusProtoTest cs

/- ### Hosted-git configuration tables (git.js) -/

structure ExplodedFragment where
  user : Str
  repo : Str
  hash : Str
deriving Repr, DecidableEq

structure GitUrl where
  protocol : Str
  hostname : Option Str
  repository : Str
  hostedGit : Option ExplodedFragment := none
deriving Repr, DecidableEq

/-- All three providers' httpsUrlTemplate produce
https://hostname/user/repo.git. -/
def httpsUrlTemplate (hostname : Str) (e : ExplodedFragment) : Str :=
  str "https://" ++ hostname ++ ['/'] ++ e.user ++ ['/'] ++ e.repo ++ str ".git"

/-- HOSTED_GIT_CONFIGURATIONS_BY_PROTOCOL in insertion order:
(protocol, defaultHostname). -/
def hostedGitProtocols : List (Str × Str) :=
  [(str "bitbucket:", str "bitbucket.org"),
   (str "gitlab:", str "gitlab.com"),
   (str "github:", str "github.com")]

/-- The key set of HOSTED_GIT_CONFIGURATIONS_BY_HOSTNAME. It is built from
each configuration's `hostnames` set: bitbucket lists bitbucket.org and
bitbucket.com; the gitlab entry lists github.com (not gitlab.com!); the
github entry lists github.com again. So gitlab.com is absent. -/
def hostedGitHostnames : List Str :=
  [str "bitbucket.org", str "bitbucket.com", str "github.com"]

def gitProtocols : List Str := [str "git:", str "ssh:"]

/-- isGitPattern from git.js. -/
def isGitPattern (pattern : Str) : Bool :=
  if (scpLikeMatch pattern).elim false (fun m => m.g3.any (fun c => ¬ isDigitCh c)) then
    true
  else
    let parsed := urlParse pattern
    match parsed.protocol with
    | none => shorthandTest pattern || gitNoProtoTest pattern
    | some protocol =>
      if parsed.pathname.elim false (fun p => endsWithL p (str ".git")) then true
      else if gitPlusProtoTest protocol then true
      else if gitProtocols.contains protocol then true
      else if hostedGitProtocols.any (fun pr => pr.1 == protocol) then true
      else
        match parsed.hostname, parsed.path with
        | some hostname, some path =>
          if hostname ≠ [] ∧ path ≠ [] ∧ hostedGitHostnames.contains hostname then
            decide ((((splitOnCh '/' path).filter (· ≠ [])).length) = 2)
          else false
        | _, _ => false

/- ### explodeHostedGitFragment and npmUrlToGitUrl (git.js) -/

/-- pattern.split(/#(.*)/, 2): the part before the first '#', and the
capture after it (cut at a line terminator, which `.` cannot match). -/
def explodeSplitHash (pattern : Str) : Str × Str :=
  let path := pattern.takeWhile (· ≠ '#')
  match pattern.drop path.length with
  | '#' :: r => (path, r.takeWhile (fun c => ¬ isJsNl c))
  | _ => (path, [])

/-- path.replace(/^[^:\/]+:\/\//, ''): strip a leading scheme://. -/
def stripUrlProtocol (path : Str) : Str :=
  let a := path.takeWhile (fun c => ¬ (c = ':' ∨ c = '/'))
  if a ≠ [] ∧ (str "://").isPrefixOf (path.drop a.length) then
    path.drop (a.length + 3)
  else path

/-- path.replace(/^[^:\/@]+@[^:\/]+(?:[:]\d+)?[:\/]/, ''): strip a leading
user@host[:port] followed by ':' or '/'. -/
def stripUserHost (path : Str) : Str :=
  let u := path.takeWhile (fun c => ¬ (c = ':' ∨ c = '/' ∨ c = '@'))
  let r0 := path.drop u.length
  if u ≠ [] ∧ r0.head? = some '@' then
    let r := r0.drop 1
    let h := r.takeWhile (fun c => ¬ (c = ':' ∨ c = '/'))
    if h ≠ [] then
      match r.drop h.length with
      | '/' :: r3 => r3
      | ':' :: r3 =>
        let d := r3.takeWhile isDigitCh
        if d ≠ [] ∧ (r3.drop d.length).head?.elim false (fun c => c = ':' ∨ c = '/') then
          (r3.drop d.length).drop 1
        else r3
      | _ => path
    else path
  else path

/-- path.replace(/\.git$/, ''). -/
def stripDotGitEnd (path : Str) : Str := removeSuffix path (str ".git")

def invalidHostedGitFragmentMsg : Str := str "invalidHostedGitFragment"

/-- explodeHostedGitFragment from git.js; the thrown MessageError becomes
an Except error. -/
def explodeHostedGitFragment (pattern : Str) : Except Str ExplodedFragment :=
  let ph := explodeSplitHash pattern
  let path := stripDotGitEnd (stripUserHost (stripUrlProtocol ph.1))
  let user := path.takeWhile (· ≠ '/')
  match path.drop user.length with
  | '/' :: r => .ok ⟨user, r.takeWhile (fun c => ¬ isJsNl c), ph.2⟩
  | _ => .error invalidHostedGitFragmentMsg

/-- resolveHostedGitPattern from git.js. -/
def resolveHostedGitPattern (pattern : Str) :
    Except Str (Str × Option ExplodedFragment) :=
  let pattern := if shorthandTest pattern then str "github:" ++ pattern else pattern
  match hostedGitProtocols.find? (fun pr => pr.1.isPrefixOf pattern) with
  | some pr =>
    match explodeHostedGitFragment (pattern.drop pr.1.length) with
    | .ok e => .ok (httpsUrlTemplate pr.2 e, some e)
    | .error msg => .error msg
  | none => .ok (pattern, none)

/-- pattern.replace(/^git\+/, ''). -/
def stripGitPlusStart (s : Str) : Str :=
  if (str "git+").isPrefixOf s then s.drop 4 else s

/-- parsed.hostname || null (the empty string is falsy). -/
def jsHostnameOrNull (o : Option Str) : Option Str :=
  match o with
  | some h => if h = [] then none else some h
  | none => none

/-- parsed.protocol || 'file:'. -/
def jsProtocolOrFile (o : Option Str) : Str :=
  match o with
  | some p => if p = [] then str "file:" else p
  | none => str "file:"

def npmUrlToGitUrlRest (pattern : Str) : Except Str GitUrl :=
  let p1 := if gitNoProtoTest pattern then str "ssh://" ++ pattern else pattern
  match resolveHostedGitPattern p1 with
  | .error e => .error e
  | .ok ph =>
    let repository := stripGitPlusStart ph.1
    let parsed := urlParse repository
    .ok ⟨jsProtocolOrFile parsed.protocol, jsHostnameOrNull parsed.hostname,
         repository, ph.2⟩

/-- npmUrlToGitUrl from git.js. -/
def npmUrlToGitUrl (pattern : Str) : Except Str GitUrl :=
  match scpLikeMatch pattern with
  | some m =>
    if m.g3.any (fun c => ¬ isDigitCh c) then
      .ok ⟨str "ssh:", some m.host, m.g1, none⟩
    else npmUrlToGitUrlRest pattern
  | none => npmUrlToGitUrlRest pattern

/- ### secureGitUrl (git.js); the `git ls-remote -t` probe (repoExists)
is an oracle parameter, thrown SecurityErrors become Except errors. -/

/-- replaceProtocol from git.js: repository.replace(/^(?:git|http):/, protocol). -/
def replaceProtocol (ref : GitUrl) (protocol : Str) : GitUrl :=
  ⟨protocol, ref.hostname,
   (if (str "git:").isPrefixOf ref.repository then protocol ++ ref.repository.drop 4
    else if (str "http:").isPrefixOf ref.repository then
      protocol ++ ref.repository.drop 5
    else ref.repository),
   none⟩

def secureGitUrl (repoExists : GitUrl → Bool) (ref : GitUrl) (hash : Str) :
    Except Str GitUrl :=
  if isCommitSha hash then .ok ref
  else if ref.protocol = str "git:" then
    let secureUrl := replaceProtocol ref (str "https:")
    if repoExists secureUrl then .ok secureUrl
    else .error (str "refusingDownloadGitWithoutCommit")
  else if ref.protocol = str "http:" then
    let secureRef := replaceProtocol ref (str "https:")
    if repoExists secureRef then .ok secureRef
    else if repoExists ref then .ok ref
    else .error (str "refusingDownloadHTTPWithoutCommit")
  else if ref.protocol = str "https:" then
    if repoExists ref then .ok ref
    else .error (str "refusingDownloadHTTPSWithoutCommit")
  else .ok ref

/- ### hasArchiveCapability and the repository session (git.js) -/

abbrev ArchiveCache := List (Str × Bool)

/-- The process-wide supportsArchiveCache, seeded with github.com → false. -/
def supportsArchiveCacheInit : ArchiveCache := [(str "github.com", false)]

/-- hasArchiveCapability: the probe oracle reports whether the
`git archive --remote` attempt failed with "did not match any files". -/
def hasArchiveCapability (probe : GitUrl → Bool) (cache : ArchiveCache)
    (ref : GitUrl) : Bool × ArchiveCache :=
  match ref.hostname with
  | none => (false, cache)
  | some hostname =>
    if ref.protocol ≠ str "ssh:" then (false, cache)
    else
      match cache.find? (fun p => p.1 == hostname) with
      | some p => (p.2, cache)
      | none =>
        let supports := probe ref
        (supports, cache ++ [(hostname, supports)])

/-- The mutable state of a Git session (the class fields the claims are
about). -/
structure Session where
  gitUrl : GitUrl
  hash : Str
  ref : Str
  supportsArchive : Bool
  fetched : Bool
deriving Repr, DecidableEq

/-- The Git constructor: supportsArchive and fetched start false, and both
hash and ref are set to the user-supplied hash. -/
def mkGit (gitUrl : GitUrl) (hash : Str) : Session :=
  ⟨gitUrl, hash, hash, false, false⟩

/-- The subprocess/collaborator oracles init consults. -/
structure Env where
  repoExists : GitUrl → Bool
  lsRemote : Str → Str
  archiveProbe : GitUrl → Bool
  git : GitOracle
  sv : SemverOracle

/-- init from git.js: secure the URL, list and parse refs, resolve the
version (setRefRemote/setRef), then either record archive capability or
fetch. A fetch is modelled as succeeding (its failure cannot change
supportsArchive). -/
def init (env : Env) (cache : ArchiveCache) (s : Session) :
    Except Str (Session × ArchiveCache) :=
  match secureGitUrl env.repoExists s.gitUrl s.hash with
  | .error e => .error e
  | .ok u2 =>
    let s1 : Session := { s with gitUrl := u2 }
    let refs := parseRefs (env.lsRemote u2.repository)
    match resolveVersion env.git env.sv refs s1.hash with
    | none => .error (str "couldntFindMatch")
    | some r =>
      let s2 : Session := { s1 with hash := r.sha, ref := r.ref.getD [] }
      if s2.ref ≠ [] then
        match hasArchiveCapability env.archiveProbe cache s2.gitUrl with
        | (true, c2) => .ok ({ s2 with supportsArchive := true }, c2)
        | (false, c2) => .ok ({ s2 with fetched := true }, c2)
      else .ok ({ s2 with fetched := true }, cache)

/- ### Helper lemmas -/

lemma secure_ok_of_commitSha (repoExists : GitUrl → Bool) (url : GitUrl)
    (hash : Str) (h : isCommitSha hash = true) :
    secureGitUrl repoExists url hash = .ok url := by
  simp [secureGitUrl, h]

/- ### Shared concrete objects for witnesses and counterexamples -/

def gOracle0 : GitOracle := ⟨⟨str "dflt0", none⟩, fun _ => none⟩

def svOracle0 : SemverOracle := ⟨fun _ => false, fun _ _ => none⟩

def urlHttp0 : GitUrl :=
  ⟨str "http:", some (str "example.com"), str "http://example.com/x/y.git", none⟩

def urlGit0 : GitUrl :=
  ⟨str "git:", some (str "example.com"), str "git://example.com/x/y.git", none⟩

/- ### Claims about secureGitUrl -/

/-- C3: for a GitUrl with protocol http: and a user hash that is not a
commit SHA, secureGitUrl returns the https:-rewritten URL when the https
remote exists, otherwise the original URL unchanged when the http remote
exists, otherwise the SecurityError; the probe is the repoExists oracle.
(The embedding is pure, so the input URL value is never modified; in the
error case no URL escapes at all.) -/
theorem c3_secure_http_policy :
    ∀ (repoExists : GitUrl → Bool) (url : GitUrl) (hash : Str),
      url.protocol = str "http:" → isCommitSha hash = false →
      secureGitUrl repoExists url hash =
        (if repoExists (replaceProtocol url (str "https:")) then
          .ok (replaceProtocol url (str "https:"))
        else if repoExists url then .ok url
        else .error (str "refusingDownloadHTTPWithoutCommit")) := by
  intro repoExists url hash hp hc
  simp [secureGitUrl, hc, hp, (by decide : (str "http:" = str "git:") ↔ False)]

theorem c3_secure_http_policy_witness :
    urlHttp0.protocol = str "http:" ∧ isCommitSha (str "main") = false ∧
    secureGitUrl (fun _ => false) urlHttp0 (str "main") =
      .error (str "refusingDownloadHTTPWithoutCommit") := by
  refine ⟨rfl, by decide, ?_⟩
  rw [c3_secure_http_policy (fun _ => false) urlHttp0 (str "main") rfl (by decide)]
  simp

/-- C4: secureGitUrl is the identity on the URL whenever the user hash is
a commit SHA (the isCommitSha predicate, 5–40 lowercase hex): it returns
the input unchanged for every repoExists oracle (so no remote is probed)
and every protocol. -/
theorem c4_secure_identity_on_sha :
    ∀ (repoExists : GitUrl → Bool) (url : GitUrl) (hash : Str),
      isCommitSha hash = true → secureGitUrl repoExists url hash = .ok url :=
  fun repoExists url hash h => secure_ok_of_commitSha repoExists url hash h

theorem c4_secure_identity_on_sha_witness :
    isCommitSha (str "abc123") = true ∧
    secureGitUrl (fun _ => false) urlGit0 (str "abc123") = .ok urlGit0 :=
  ⟨by decide, c4_secure_identity_on_sha (fun _ => false) urlGit0 (str "abc123") (by decide)⟩

lemma mem_hexAny_lower_isLowHex : ∀ c ∈ hexAnyChars, isLowHex (asciiLower c) = true := by
  decide

lemma mem_hexAny_upper_not_lowHex :
    ∀ c ∈ hexAnyChars, ('A' ≤ c ∧ c ≤ 'F') → isLowHex c = false := by
  decide

lemma isHexAny_mem {c : Char} (h : isHexAny c = true) : c ∈ hexAnyChars := by
  simpa [isHexAny] using h

/-- C10: isCommitSha matches only lowercase hex, so a 5–40 hex hash with
at least one uppercase letter is not taken as a commit pin: for every
insecure protocol (git:, http:, https:), secureGitUrl still probes and (for
an always-failing probe) raises a SecurityError, while the same hash
lowercased is accepted as a pin and the URL is returned unchanged. -/
theorem c10_uppercase_hex_not_pinned :
    ∀ hash : Str,
      5 ≤ hash.length → hash.length ≤ 40 → hash.all isHexAny = true →
      hash.any (fun c => decide ('A' ≤ c ∧ c ≤ 'F')) = true →
      isCommitSha hash = false ∧ isCommitSha (jsToLower hash) = true ∧
      (∀ url : GitUrl,
        url.protocol = str "git:" ∨ url.protocol = str "http:" ∨
          url.protocol = str "https:" →
        (∃ e, secureGitUrl (fun _ => false) url hash = .error e) ∧
        (∀ repoExists, secureGitUrl repoExists url (jsToLower hash) = .ok url)) := by
  intro hash h5 h40 hhex hup
  have hlenlow : (jsToLower hash).length = hash.length := by
    simp [jsToLower]
  have hne : hash ≠ [] := by
    intro he; rw [he] at h5; simp at h5
  have hnotlow : isCommitSha hash = false := by
    rcases List.any_eq_true.mp hup with ⟨c, hc, hAF⟩
    have hc2 : isHexAny c = true := List.all_eq_true.mp hhex c hc
    have : isLowHex c = false :=
      mem_hexAny_upper_not_lowHex c (isHexAny_mem hc2) (of_decide_eq_true hAF)
    have h3 : hash.all isLowHex = false :=
      (List.all_eq_false (p := isLowHex) (l := hash)).mpr ⟨c, hc, by simp [this]⟩
    simp [isCommitSha, h3]
  have hlow : isCommitSha (jsToLower hash) = true := by
    have hall : (jsToLower hash).all isLowHex = true := by
      rw [jsToLower, List.all_map]
      exact List.all_eq_true.mpr fun c hc =>
        mem_hexAny_lower_isLowHex c (isHexAny_mem (List.all_eq_true.mp hhex c hc))
    have hnel : jsToLower hash ≠ [] := by
      simp [jsToLower, hne]
    simp [isCommitSha, hall, hlenlow, h5, h40, hnel]
  refine ⟨hnotlow, hlow, ?_⟩
  intro url hurl
  constructor
  · rcases hurl with hp | hp | hp
    · exact ⟨str "refusingDownloadGitWithoutCommit",
        by simp [secureGitUrl, hnotlow, hp]⟩
    · exact ⟨str "refusingDownloadHTTPWithoutCommit",
        by simp [secureGitUrl, hnotlow, hp,
          (by decide : (str "http:" = str "git:") ↔ False)]⟩
    · exact ⟨str "refusingDownloadHTTPSWithoutCommit",
        by simp [secureGitUrl, hnotlow, hp,
          (by decide : (str "https:" = str "git:") ↔ False),
          (by decide : (str "https:" = str "http:") ↔ False)]⟩
  · intro repoExists
    exact secure_ok_of_commitSha repoExists url _ hlow

theorem c10_uppercase_hex_not_pinned_witness :
    isCommitSha (str "ABC12") = false ∧ isCommitSha (jsToLower (str "ABC12")) = true ∧
    (∃ e, secureGitUrl (fun _ => false) urlGit0 (str "ABC12") = .error e) ∧
    secureGitUrl (fun _ => false) urlGit0 (jsToLower (str "ABC12")) = .ok urlGit0 := by
  have h := c10_uppercase_hex_not_pinned (str "ABC12") (by decide) (by decide)
    (by decide) (by decide)
  exact ⟨h.1, h.2.1, (h.2.2 urlGit0 (Or.inl rfl)).1,
    (h.2.2 urlGit0 (Or.inl rfl)).2 (fun _ => false)⟩

/- ### Claim about the hosted-host rule of isGitPattern -/

/-- C5: the claim says a URL on a known hosted-git host (github.com,
gitlab.com, bitbucket.org, bitbucket.com) is a git pattern iff its path
has exactly two non-empty segments, in particular that
https://gitlab.com/user/repo is recognized. The code rejects it: the
gitlab configuration's hostname set is {github.com}, so gitlab.com is not a
key of HOSTED_GIT_CONFIGURATIONS_BY_HOSTNAME (the bug the spec's design
notes flag). The two-segment rule does hold for the hosts that are in the
table, as the github.com evaluations show. -/
theorem c5_hostedHost_eval :
    isGitPattern (str "https://gitlab.com/user/repo") = false ∧
    isGitPattern (str "https://github.com/user/repo") = true ∧
    isGitPattern (str "https://bitbucket.com/user/repo") = true ∧
    isGitPattern (str "https://github.com/user/repo/archive/v1.0.0.tar.gz") = false := by
  decide

/- ### List lemmas used by the resolver proofs -/

lemma takeWhile_append_all {p : Char → Bool} (xs ys : Str) (h : xs.all p = true) :
    (xs ++ ys).takeWhile p = xs ++ ys.takeWhile p := by
  induction xs with
  | nil => simp
  | cons c cs ih =>
    simp only [List.all_cons, Bool.and_eq_true] at h
    simp [List.takeWhile_cons, h.1, ih h.2]

lemma takeWhile_append_stop {p : Char → Bool} (xs : Str) (c : Char) (ys : Str)
    (h1 : xs.all p = true) (h2 : p c = false) :
    (xs ++ c :: ys).takeWhile p = xs := by
  rw [takeWhile_append_all xs (c :: ys) h1]
  simp [List.takeWhile_cons, h2]

lemma dropWhile_append_all {p : Char → Bool} (xs ys : Str) (h : xs.all p = true) :
    (xs ++ ys).dropWhile p = ys.dropWhile p := by
  induction xs with
  | nil => simp
  | cons c cs ih =>
    simp only [List.all_cons, Bool.and_eq_true] at h
    simp [List.dropWhile_cons, h.1, ih h.2]

lemma dropWhile_append_stop {p : Char → Bool} (xs : Str) (c : Char) (ys : Str)
    (h1 : xs.all p = true) (h2 : p c = false) :
    (xs ++ c :: ys).dropWhile p = c :: ys := by
  rw [dropWhile_append_all xs (c :: ys) h1]
  simp [List.dropWhile_cons, h2]

lemma dropWhile_all_not {p : Char → Bool} (l : Str) (h : l.all (fun c => ! p c) = true) :
    l.dropWhile p = l := by
  induction l with
  | nil => simp
  | cons c cs ih =>
    simp only [List.all_cons, Bool.and_eq_true] at h
    have : p c = false := by
      cases hpc : p c
      · rfl
      · rw [hpc] at h; exact absurd h.1 (by decide)
    simp [List.dropWhile_cons, this, ih h.2]

lemma jsTrim_all_not_ws (v : Str) (h : v.all (fun c => ! isJsWs c) = true) :
    jsTrim v = v := by
  unfold jsTrim
  rw [dropWhile_all_not v h, dropWhile_all_not v.reverse (by rwa [List.all_reverse]),
    List.reverse_reverse]

lemma lower_lowHex_not_ws (c : Char) (h : isLowHex (asciiLower c) = true) :
    isJsWs c = false := by
  by_cases hc : 'A' ≤ c ∧ c ≤ 'Z'
  · cases hw : isJsWs c
    · rfl
    · exfalso
      have hmem : c ∈ jsWsChars := by simpa [isJsWs] using hw
      exact (by decide : ∀ x ∈ jsWsChars, ¬ ('A' ≤ x ∧ x ≤ 'Z')) c hmem hc
  · rw [show asciiLower c = c by simp [asciiLower, hc]] at h
    have hmem : c ∈ lowHexChars := by simpa [isLowHex] using h
    exact (by decide : ∀ x ∈ lowHexChars, isJsWs x = false) c hmem

lemma commitSha_jsTrim (v : Str) (h : isCommitSha (jsToLower v) = true) :
    jsTrim v = v ∧ v ≠ [] := by
  have h2 := h
  simp only [isCommitSha, Bool.and_eq_true, decide_eq_true_eq] at h2
  obtain ⟨⟨⟨hne0, _⟩, _⟩, hall⟩ := h2
  have hv : v.all (fun c => ! isJsWs c) = true := by
    rw [jsToLower, List.all_map] at hall
    refine List.all_eq_true.mpr fun c hc => ?_
    simp [lower_lowHex_not_ws c (List.all_eq_true.mp hall c hc)]
  have hne : v ≠ [] := by
    rintro rfl
    exact hne0 rfl
  exact ⟨jsTrim_all_not_ws v hv, hne⟩

/- ### Claims about resolveVersion -/

/-- C7: for a version that is 5–40 hex in either case, when some ref's SHA
starts with the lowercased version, resolveVersion returns that ref and its
full SHA (the first match in enumeration order), independently of the
commit/default-branch oracles and the semver evaluator; resolution of hex
tokens is case-insensitive via the toLowerCase normalisation. -/
theorem c7_commit_prefix_resolution :
    ∀ (g : GitOracle) (sv : SemverOracle) (refs : GitRefs) (version : Str),
      isCommitSha (jsToLower version) = true →
      refs.any (fun p => (jsToLower version).isPrefixOf p.2) = true →
      ∃ name sha, (name, sha) ∈ refs ∧ (jsToLower version).isPrefixOf sha = true ∧
        resolveVersion g sv refs version = some ⟨sha, some name⟩ := by
  intro g sv refs version hsha hany
  obtain ⟨htrim, hne⟩ := commitSha_jsTrim version hsha
  have htr : ¬ (jsTrim version = []) := by rw [htrim]; exact hne
  have hsome : (refs.find? (fun p => (jsToLower version).isPrefixOf p.2)).isSome := by
    rw [List.find?_isSome]
    exact List.any_eq_true.mp hany
  obtain ⟨p, hfind⟩ := Option.isSome_iff_exists.mp hsome
  have hpred := List.find?_some hfind
  have hmem := List.mem_of_find?_eq_some hfind
  refine ⟨p.1, p.2, by simpa using hmem, by simpa using hpred, ?_⟩
  have hstep : tryVersionAsGitCommit g refs version = some ⟨p.2, some p.1⟩ := by
    simp [tryVersionAsGitCommit, hsha, hfind]
  simp [resolveVersion, if_neg htr, runSteps, hstep]

theorem c7_commit_prefix_resolution_witness :
    isCommitSha (jsToLower (str "4CFF93A")) = true ∧
    (∃ name sha,
      (name, sha) ∈ [(str "refs/heads/3.3", str "4cff93aa6e8270c3bec988af464d28a164bc3cb2")] ∧
      (jsToLower (str "4CFF93A")).isPrefixOf sha = true ∧
      resolveVersion gOracle0 svOracle0
        [(str "refs/heads/3.3", str "4cff93aa6e8270c3bec988af464d28a164bc3cb2")]
        (str "4CFF93A") = some ⟨sha, some name⟩) :=
  ⟨by decide,
   c7_commit_prefix_resolution gOracle0 svOracle0
     [(str "refs/heads/3.3", str "4cff93aa6e8270c3bec988af464d28a164bc3cb2")]
     (str "4CFF93A") (by decide) (by decide)⟩

/-- C1 (amended): resolveVersion tries commit, full ref, tag name, branch
name, semver, wildcard in that order. Hence, provided the token is not
itself a hex commit prefix (after lowercasing), does not start with refs/,
and is not all-whitespace: when refs/tags/X is present (with a truthy SHA)
the tag wins no matter what else the table holds (tags beat branches), and
when only refs/heads/X is present the branch wins over any semver-range
match, for every semver evaluator. -/
theorem c1_resolution_order :
    (∀ (g : GitOracle) (sv : SemverOracle) (refs : GitRefs) (v tsha : Str),
      jsTrim v ≠ [] →
      isCommitSha (jsToLower v) = false →
      (str "refs/").isPrefixOf v = false →
      refsLookup refs (refTagStr ++ v) = some tsha → tsha ≠ [] →
      resolveVersion g sv refs v = some ⟨tsha, some (refTagStr ++ v)⟩) ∧
    (∀ (g : GitOracle) (sv : SemverOracle) (refs : GitRefs) (v bsha : Str),
      jsTrim v ≠ [] →
      isCommitSha (jsToLower v) = false →
      (str "refs/").isPrefixOf v = false →
      tryRef refs (refTagStr ++ v) = none →
      refsLookup refs (refBranchStr ++ v) = some bsha → bsha ≠ [] →
      resolveVersion g sv refs v = some ⟨bsha, some (refBranchStr ++ v)⟩) := by
  constructor
  · intro g sv refs v tsha htrim hnc hnp hlook hne
    have h1 : tryVersionAsGitCommit g refs v = none := by
      simp [tryVersionAsGitCommit, hnc]
    have h2 : tryVersionAsFullRef refs v = none := by
      simp [tryVersionAsFullRef, hnp]
    have h3 : tryVersionAsTagName refs v = some ⟨tsha, some (refTagStr ++ v)⟩ := by
      simp [tryVersionAsTagName, tryRef, hlook, hne]
    simp [resolveVersion, if_neg htrim, runSteps, h1, h2, h3]
  · intro g sv refs v bsha htrim hnc hnp htag hlook hne
    have h1 : tryVersionAsGitCommit g refs v = none := by
      simp [tryVersionAsGitCommit, hnc]
    have h2 : tryVersionAsFullRef refs v = none := by
      simp [tryVersionAsFullRef, hnp]
    have h3 : tryVersionAsTagName refs v = none := htag
    have h4 : tryVersionAsBranchName refs v = some ⟨bsha, some (refBranchStr ++ v)⟩ := by
      simp [tryVersionAsBranchName, tryRef, hlook, hne]
    simp [resolveVersion, if_neg htrim, runSteps, h1, h2, h3, h4]

def refsBoth0 : GitRefs :=
  [(str "refs/tags/both", str "f0dbab0a4345a64f544af37e24fc8187176936a4"),
   (str "refs/heads/both", str "106c28537be070b98ca1effaef6a2bf6414e1e49"),
   (str "refs/heads/1.1", str "eaa56cb34863810060abbec2d755ba51508afedc")]

theorem c1_resolution_order_witness :
    resolveVersion gOracle0 svOracle0 refsBoth0 (str "both") =
      some ⟨str "f0dbab0a4345a64f544af37e24fc8187176936a4", some (str "refs/tags/both")⟩ ∧
    resolveVersion gOracle0 svOracle0 refsBoth0 (str "1.1") =
      some ⟨str "eaa56cb34863810060abbec2d755ba51508afedc", some (str "refs/heads/1.1")⟩ :=
  ⟨c1_resolution_order.1 gOracle0 svOracle0 refsBoth0 (str "both")
      (str "f0dbab0a4345a64f544af37e24fc8187176936a4")
      (by decide) (by decide) (by decide) (by decide) (by decide),
   c1_resolution_order.2 gOracle0 svOracle0 refsBoth0 (str "1.1")
      (str "eaa56cb34863810060abbec2d755ba51508afedc")
      (by decide) (by decide) (by decide) (by decide) (by decide) (by decide)⟩

/-- C1 counterexample: a refs table holding both refs/tags/aaaaa and
refs/heads/aaaaa where "aaaaa" is a hex token prefixing the branch's SHA.
The commit-prefix strategy runs before the tag-name strategy and returns
the branch's entry, so for this table resolving "aaaaa" does not return
the tag's SHA and ref, contradicting the claim's universal statement. -/
theorem c1_resolution_order_cex :
    resolveVersion gOracle0 svOracle0
      [(str "refs/tags/aaaaa", str "bbbbb111111111111111111111111111111111111"),
       (str "refs/heads/aaaaa", str "aaaaa222222222222222222222222222222222222")]
      (str "aaaaa") =
      some ⟨str "aaaaa222222222222222222222222222222222222",
            some (str "refs/heads/aaaaa")⟩ ∧
    ¬ (resolveVersion gOracle0 svOracle0
        [(str "refs/tags/aaaaa", str "bbbbb111111111111111111111111111111111111"),
         (str "refs/heads/aaaaa", str "aaaaa222222222222222222222222222222222222")]
        (str "aaaaa") =
       some ⟨str "bbbbb111111111111111111111111111111111111",
             some (str "refs/tags/aaaaa")⟩) := by
  decide

/- ### Claims about parseRefs -/

lemma splitOnCh_no (sep : Char) (l : Str) (h : ∀ c ∈ l, c ≠ sep) :
    splitOnCh sep l = [l] := by
  induction l with
  | nil => rfl
  | cons c cs ih =>
    have hrec := ih (fun x hx => h x (by simp [hx]))
    simp [splitOnCh, h c (by simp), hrec]

lemma splitOnCh_append (sep : Char) (l1 l2 : Str) (h : ∀ c ∈ l1, c ≠ sep) :
    splitOnCh sep (l1 ++ sep :: l2) = l1 :: splitOnCh sep l2 := by
  induction l1 with
  | nil => simp [splitOnCh]
  | cons c cs ih =>
    have hrec := ih (fun x hx => h x (by simp [hx]))
    simp [splitOnCh, h c (by simp), hrec]

lemma isPrefixOf_append_self (l1 l2 : Str) : l1.isPrefixOf (l1 ++ l2) = true := by
  induction l1 with
  | nil => simp [List.isPrefixOf]
  | cons c cs ih => simp [List.isPrefixOf, ih]

/-- A well-formed ls-remote line (hex run, whitespace run, tag/branch ref
name) matches gitRefLineRegex with the expected captures. -/
lemma gitRefLineMatch_comp (s w n : Str) (hs : s ≠ []) (hsh : s.all isHexAny = true)
    (hw : w ≠ []) (hwa : w.all isJsWs = true)
    (hpre : refTagStr.isPrefixOf n = true ∨ refBranchStr.isPrefixOf n = true)
    (hnl : n.all (fun c => ¬ isJsNl c) = true) :
    gitRefLineMatch (s ++ w ++ n) = some (s, n) := by
  obtain ⟨c, w2, rfl⟩ : ∃ c w2, w = c :: w2 := by
    cases w with
    | nil => exact absurd rfl hw
    | cons a b => exact ⟨a, b, rfl⟩
  have hcws : isJsWs c = true := (List.all_eq_true.mp hwa c (by simp))
  have hchex : isHexAny c = false := by
    cases hx : isHexAny c
    · rfl
    · exfalso
      have hf : isJsWs c = false :=
        (by decide : ∀ x ∈ hexAnyChars, isJsWs x = false) c
          (by simpa [isHexAny] using hx)
      rw [hf] at hcws
      exact absurd hcws (by decide)
  obtain ⟨t, rfl⟩ : ∃ t, n = 'r' :: t := by
    rcases hpre with hp | hp
    · rcases List.isPrefixOf_iff_prefix.mp hp with ⟨t, ht⟩
      exact ⟨(str "efs/tags/") ++ t, by rw [← ht]; rfl⟩
    · rcases List.isPrefixOf_iff_prefix.mp hp with ⟨t, ht⟩
      exact ⟨(str "efs/heads/") ++ t, by rw [← ht]; rfl⟩
  have hassoc : s ++ (c :: w2) ++ ('r' :: t) = s ++ c :: (w2 ++ 'r' :: t) := by
    simp
  rw [gitRefLineMatch]
  rw [hassoc]
  rw [takeWhile_append_stop s c (w2 ++ 'r' :: t) hsh hchex,
    dropWhile_append_stop s c (w2 ++ 'r' :: t) hsh hchex]
  have hassoc2 : c :: (w2 ++ 'r' :: t) = (c :: w2) ++ 'r' :: t := by simp
  rw [hassoc2,
    takeWhile_append_stop (c :: w2) 'r' t hwa (by decide),
    dropWhile_append_stop (c :: w2) 'r' t hwa (by decide)]
  rw [if_pos ⟨hs, by simp, hpre, hnl⟩]

lemma removeSuffix_append (x suf : Str) : removeSuffix (x ++ suf) suf = x := by
  have he : endsWithL (x ++ suf) suf = true := by
    have h0 : (suf.reverse ++ x.reverse).take suf.reverse.length = suf.reverse :=
      List.take_left suf.reverse x.reverse
    simp only [endsWithL, List.reverse_append]
    rw [show suf.length = suf.reverse.length by simp, h0]
    simp
  rw [removeSuffix, if_pos he]
  have hlen : (x ++ suf).length - suf.length = x.length := by simp
  rw [hlen, List.take_left x suf]

lemma removeSuffix_no (p suf : Str) (h : endsWithL p suf = false) :
    removeSuffix p suf = p := by
  simp [removeSuffix, h]

/-- Appending the refs/tags/ path in front cannot create a peeled ^-brace
suffix that the tail does not already have. -/
lemma endsWith_refTag_peeled (T : Str) (hT : T ≠ [])
    (hend : endsWithL T peeledSuffix = false) :
    endsWithL (refTagStr ++ T) peeledSuffix = false := by
  have h3 : peeledSuffix.length = 3 := by decide
  rcases ha : T.reverse with _ | ⟨a, tl⟩
  · exact absurd (by simpa using congrArg List.reverse ha) hT
  rcases hb : tl with _ | ⟨b, tl2⟩
  · have hT1 : T = [a] := by
      have := congrArg List.reverse ha
      simpa [hb] using this
    subst hT1
    simp [endsWithL, refTagStr, str, peeledSuffix]
  rcases hc : tl2 with _ | ⟨c, tl3⟩
  · have hT2 : T = [b, a] := by
      have := congrArg List.reverse ha
      simpa [hb, hc] using this
    subst hT2
    simp [endsWithL, refTagStr, str, peeledSuffix]
  · have hlen : 3 ≤ T.reverse.length := by simp [ha, hb, hc]
    have heq : (refTagStr ++ T).reverse.take 3 = T.reverse.take 3 := by
      rw [List.reverse_append, List.take_append_eq_append_take]
      have hz : 3 - T.reverse.length = 0 := by omega
      rw [hz]
      simp
    simp only [endsWithL, h3] at *
    rw [heq]
    exact hend

lemma refsLookup_single (k sha : Str) : refsLookup [(k, sha)] k = some sha := by
  simp [refsLookup, List.find?]

/-- parseRefs on two matching lines whose stripped names agree: the second
line overwrites the first. -/
lemma parseRefs_two (lA lB sA sB nA nB : Str)
    (hAnl : ∀ c ∈ lA, c ≠ '\n') (hBnl : ∀ c ∈ lB, c ≠ '\n')
    (hA : gitRefLineMatch lA = some (sA, nA))
    (hB : gitRefLineMatch lB = some (sB, nB))
    (hk : removeSuffix nA peeledSuffix = removeSuffix nB peeledSuffix) :
    parseRefs (lA ++ '\n' :: lB) = [(removeSuffix nB peeledSuffix, sB)] := by
  rw [parseRefs, splitOnCh_append '\n' lA lB hAnl, splitOnCh_no '\n' lB hBnl]
  simp only [List.foldl, hA, hB]
  rw [hk]
  simp [refsUpsert]

/-- C2 (amended): for an ls-remote listing holding a line for refs/tags/T
and a line for refs/tags/T^-braces, parseRefs strips the peeled suffix and
the assignment of whichever line comes later overwrites the earlier one.
In the layout git actually emits — the peeled line after the tag line —
the peeled SHA therefore overrides the tag-object SHA; in the reversed
order the tag-object SHA wins. -/
theorem c2_peeled_suffix_last_wins :
    ∀ (s1 s2 T w1 w2 : Str),
      s1 ≠ [] → s1.all isHexAny = true →
      s2 ≠ [] → s2.all isHexAny = true →
      w1 ≠ [] → w1.all isJsWs = true → (∀ c ∈ w1, c ≠ '\n') →
      w2 ≠ [] → w2.all isJsWs = true → (∀ c ∈ w2, c ≠ '\n') →
      T ≠ [] → T.all (fun c => ¬ isJsNl c) = true →
      endsWithL T peeledSuffix = false →
      refsLookup (parseRefs ((s1 ++ w1 ++ (refTagStr ++ T)) ++ '\n' ::
          (s2 ++ w2 ++ (refTagStr ++ T ++ peeledSuffix))))
        (refTagStr ++ T) = some s2 ∧
      refsLookup (parseRefs ((s2 ++ w2 ++ (refTagStr ++ T ++ peeledSuffix)) ++ '\n' ::
          (s1 ++ w1 ++ (refTagStr ++ T))))
        (refTagStr ++ T) = some s1 := by
  intro s1 s2 T w1 w2 hs1 hs1h hs2 hs2h hw1 hw1ws hw1nl hw2 hw2ws hw2nl hT hTnl hTend
  have hhexnl : ∀ x : Char, isHexAny x = true → x ≠ '\n' := fun x hx =>
    (by decide : ∀ y ∈ hexAnyChars, y ≠ '\n') x (by simpa [isHexAny] using hx)
  have hTnl2 : ∀ x ∈ T, x ≠ '\n' := by
    intro x hx
    have hx2 := List.all_eq_true.mp hTnl x hx
    intro hrfl
    rw [hrfl] at hx2
    exact absurd hx2 (by decide)
  have hrefnl : ∀ x ∈ refTagStr, x ≠ '\n' := by decide
  have hpeelnl : ∀ x ∈ peeledSuffix, x ≠ '\n' := by decide
  have hnlA : (refTagStr ++ T).all (fun c => ¬ isJsNl c) = true := by
    rw [List.all_append, Bool.and_eq_true]
    exact ⟨by decide, hTnl⟩
  have hnlB : ((refTagStr ++ T) ++ peeledSuffix).all (fun c => ¬ isJsNl c) = true := by
    rw [List.all_append, Bool.and_eq_true]
    exact ⟨hnlA, by decide⟩
  have hlineA : ∀ c ∈ s1 ++ w1 ++ (refTagStr ++ T), c ≠ '\n' := by
    intro c hc
    simp only [List.mem_append] at hc
    rcases hc with (hc | hc) | (hc | hc)
    · exact hhexnl c (List.all_eq_true.mp hs1h c hc)
    · exact hw1nl c hc
    · exact hrefnl c hc
    · exact hTnl2 c hc
  have hlineB : ∀ c ∈ s2 ++ w2 ++ (refTagStr ++ T ++ peeledSuffix), c ≠ '\n' := by
    intro c hc
    simp only [List.mem_append] at hc
    rcases hc with (hc | hc) | ((hc | hc) | hc)
    · exact hhexnl c (List.all_eq_true.mp hs2h c hc)
    · exact hw2nl c hc
    · exact hrefnl c hc
    · exact hTnl2 c hc
    · exact hpeelnl c hc
  have hA : gitRefLineMatch (s1 ++ w1 ++ (refTagStr ++ T)) =
      some (s1, refTagStr ++ T) :=
    gitRefLineMatch_comp s1 w1 (refTagStr ++ T) hs1 hs1h hw1 hw1ws
      (Or.inl (isPrefixOf_append_self _ _)) hnlA
  have hB : gitRefLineMatch (s2 ++ w2 ++ (refTagStr ++ T ++ peeledSuffix)) =
      some (s2, refTagStr ++ T ++ peeledSuffix) :=
    gitRefLineMatch_comp s2 w2 (refTagStr ++ T ++ peeledSuffix) hs2 hs2h hw2 hw2ws
      (Or.inl (by rw [List.append_assoc]; exact isPrefixOf_append_self _ _)) hnlB
  have hkA : removeSuffix (refTagStr ++ T) peeledSuffix = refTagStr ++ T :=
    removeSuffix_no _ _ (endsWith_refTag_peeled T hT hTend)
  have hkB : removeSuffix (refTagStr ++ T ++ peeledSuffix) peeledSuffix =
      refTagStr ++ T := removeSuffix_append _ _
  constructor
  · have h12 := parseRefs_two _ _ s1 s2 (refTagStr ++ T)
      (refTagStr ++ T ++ peeledSuffix) hlineA hlineB hA hB (hkA.trans hkB.symm)
    rw [h12, hkB]
    exact refsLookup_single _ _
  · have h21 := parseRefs_two _ _ s2 s1 (refTagStr ++ T ++ peeledSuffix)
      (refTagStr ++ T) hlineB hlineA hB hA (hkB.trans hkA.symm)
    rw [h21, hkA]
    exact refsLookup_single _ _

theorem c2_peeled_suffix_last_wins_witness :
    refsLookup (parseRefs ((str "aaa" ++ str " " ++ (refTagStr ++ str "t")) ++ '\n' ::
        (str "bbb" ++ str " " ++ (refTagStr ++ str "t" ++ peeledSuffix))))
      (refTagStr ++ str "t") = some (str "bbb") ∧
    refsLookup (parseRefs ((str "bbb" ++ str " " ++ (refTagStr ++ str "t" ++ peeledSuffix)) ++ '\n' ::
        (str "aaa" ++ str " " ++ (refTagStr ++ str "t"))))
      (refTagStr ++ str "t") = some (str "aaa") :=
  c2_peeled_suffix_last_wins (str "aaa") (str "bbb") (str "t") (str " ") (str " ")
    (by decide) (by decide) (by decide) (by decide) (by decide) (by decide)
    (by decide) (by decide) (by decide) (by decide) (by decide) (by decide)
    (by decide)

/-- C2 counterexample: the claim demands the peeled SHA regardless of the
order of the two lines, but when the peeled line comes first the later
plain tag line overwrites it, so the returned SHA for refs/tags/t is the
tag-object SHA bbbbb, not the peeled SHA aaaaa. -/
theorem c2_peeled_suffix_last_wins_cex :
    refsLookup (parseRefs (str "aaaaa refs/tags/t^\x7b\x7d\nbbbbb refs/tags/t"))
      (str "refs/tags/t") = some (str "bbbbb") ∧
    ¬ (refsLookup (parseRefs (str "aaaaa refs/tags/t^\x7b\x7d\nbbbbb refs/tags/t"))
        (str "refs/tags/t") = some (str "aaaaa")) := by
  decide

/- ### Claim C9: round-trip of the hosted-git fragment grammar -/

lemma takeWhile_all {p : Char → Bool} (l : Str) (h : l.all p = true) :
    l.takeWhile p = l := by
  induction l with
  | nil => rfl
  | cons c cs ih =>
    simp only [List.all_cons, Bool.and_eq_true] at h
    simp [List.takeWhile_cons, h.1, ih h.2]

lemma dropWhile_nil_of_all {p : Char → Bool} (l : Str) (h : l.all p = true) :
    l.dropWhile p = [] := by
  induction l with
  | nil => rfl
  | cons c cs ih =>
    simp only [List.all_cons, Bool.and_eq_true] at h
    simp [List.dropWhile_cons, h.1, ih h.2]

lemma drop_takeWhile (p : Char → Bool) (l : Str) :
    l.drop (l.takeWhile p).length = l.dropWhile p := by
  induction l with
  | nil => rfl
  | cons c cs ih =>
    by_cases hc : p c
    · simpa [List.takeWhile_cons, List.dropWhile_cons, hc] using ih
    · simp [List.takeWhile_cons, List.dropWhile_cons, hc]

lemma endsWith_exists (s suf : Str) (h : endsWithL s suf = true) :
    ∃ x, s = x ++ suf := by
  have h2 : s.reverse.take suf.length = suf.reverse := of_decide_eq_true h
  refine ⟨(s.reverse.drop suf.length).reverse, ?_⟩
  have h3 : s.reverse = suf.reverse ++ s.reverse.drop suf.length := by
    conv_lhs => rw [← List.take_append_drop suf.length s.reverse]
    rw [h2]
  calc s = s.reverse.reverse := by simp
  _ = (suf.reverse ++ s.reverse.drop suf.length).reverse := by rw [← h3]
  _ = (s.reverse.drop suf.length).reverse ++ suf := by simp

/-- A .git suffix cannot straddle the user/repo slash: when the repo part
does not end in .git, neither does user/repo. -/
lemma endsWith_slash_dotgit (user repo : Str) (hr : repo ≠ [])
    (hnd : endsWithL repo (str ".git") = false) :
    endsWithL (user ++ '/' :: repo) (str ".git") = false := by
  have hrev : (user ++ '/' :: repo).reverse = repo.reverse ++ '/' :: user.reverse := by
    simp
  rcases ha : repo.reverse with _ | ⟨a, tl⟩
  · exact absurd (by simpa using congrArg List.reverse ha) hr
  rcases hb : tl with _ | ⟨b, tl2⟩
  · rw [endsWithL, hrev, ha, hb]
    apply decide_eq_false
    intro heq
    simp [str, List.take] at heq
  rcases hc : tl2 with _ | ⟨c, tl3⟩
  · rw [endsWithL, hrev, ha, hb, hc]
    apply decide_eq_false
    intro heq
    simp [str, List.take] at heq
  rcases hd : tl3 with _ | ⟨d, tl4⟩
  · rw [endsWithL, hrev, ha, hb, hc, hd]
    apply decide_eq_false
    intro heq
    simp [str, List.take] at heq
  · have hlen : (str ".git").length ≤ repo.reverse.length := by
      simp [ha, hb, hc, hd, str]
    rw [endsWithL, hrev]
    rw [List.take_append_eq_append_take]
    have hz : (str ".git").length - repo.reverse.length = 0 := by omega
    rw [hz]
    simp only [List.take_zero, List.append_nil]
    exact hnd

lemma explodeSplitHash_no (pattern : Str) (h : pattern.all (fun c => c ≠ '#') = true) :
    explodeSplitHash pattern = (pattern, []) := by
  have ht : pattern.takeWhile (fun c => c ≠ '#') = pattern := takeWhile_all pattern h
  simp only [explodeSplitHash, ht, List.drop_length]

lemma explodeSplitHash_at (pre hash : Str) (h : pre.all (fun c => c ≠ '#') = true)
    (hh2 : hash.all (fun c => ¬ isJsNl c) = true) :
    explodeSplitHash (pre ++ '#' :: hash) = (pre, hash) := by
  have ht : (pre ++ '#' :: hash).takeWhile (fun c => c ≠ '#') = pre :=
    takeWhile_append_stop pre '#' hash h (by decide)
  simp only [explodeSplitHash, ht, List.drop_left]
  rw [takeWhile_all hash hh2]

lemma stripUrlProtocol_slash (user rest : Str)
    (hu2 : user.all (fun c => ¬ (c = ':' ∨ c = '/')) = true) :
    stripUrlProtocol (user ++ '/' :: rest) = user ++ '/' :: rest := by
  have ht : (user ++ '/' :: rest).takeWhile (fun c => ¬ (c = ':' ∨ c = '/')) = user :=
    takeWhile_append_stop user '/' rest hu2 (by decide)
  simp only [stripUrlProtocol, ht, List.drop_left]
  rw [if_neg]
  rintro ⟨-, hp⟩
  simp [str, List.isPrefixOf] at hp

lemma stripUserHost_slash (user rest : Str)
    (hu3 : user.all (fun c => ¬ (c = ':' ∨ c = '/' ∨ c = '@')) = true) :
    stripUserHost (user ++ '/' :: rest) = user ++ '/' :: rest := by
  have ht : (user ++ '/' :: rest).takeWhile (fun c => ¬ (c = ':' ∨ c = '/' ∨ c = '@')) = user :=
    takeWhile_append_stop user '/' rest hu3 (by decide)
  simp only [stripUserHost, ht, List.drop_left]
  rw [if_neg]
  rintro ⟨-, hp⟩
  simp at hp

/-- Core computation of explodeHostedGitFragment on a composed body
user/X[#hash], given the .git-stripping result on the path. -/
lemma explode_comp (user X Y hash : Str) (hh : Bool)
    (huP : ∀ x ∈ user, ¬ (x = '/' ∨ x = ':' ∨ x = '@' ∨ x = '#'))
    (hX : ∀ x ∈ X, x ≠ '#')
    (hstrip : stripDotGitEnd (user ++ '/' :: X) = user ++ '/' :: Y)
    (hY : Y.all (fun c => ¬ isJsNl c) = true)
    (hhash : hash.all (fun c => ¬ isJsNl c) = true) :
    explodeHostedGitFragment (user ++ '/' :: (X ++ (if hh then '#' :: hash else [])))
      = .ok ⟨user, Y, if hh then hash else []⟩ := by
  have hpathall : (user ++ '/' :: X).all (fun c => c ≠ '#') = true := by
    refine List.all_eq_true.mpr fun x hx => ?_
    simp only [List.mem_append, List.mem_cons] at hx
    rcases hx with hx | hx | hx
    · exact decide_eq_true fun he => huP x hx (by simp [he])
    · subst hx; decide
    · exact decide_eq_true (hX x hx)
  have hu2 : user.all (fun c => ¬ (c = ':' ∨ c = '/')) = true :=
    List.all_eq_true.mpr fun x hx =>
      decide_eq_true fun hor => huP x hx (by tauto)
  have hu3 : user.all (fun c => ¬ (c = ':' ∨ c = '/' ∨ c = '@')) = true :=
    List.all_eq_true.mpr fun x hx =>
      decide_eq_true fun hor => huP x hx (by tauto)
  have hu4 : user.all (fun c => c ≠ '/') = true :=
    List.all_eq_true.mpr fun x hx =>
      decide_eq_true fun hor => huP x hx (by tauto)
  have hsplit : explodeSplitHash (user ++ '/' :: (X ++ (if hh then '#' :: hash else [])))
      = (user ++ '/' :: X, if hh then hash else []) := by
    cases hh
    · simpa using explodeSplitHash_no (user ++ '/' :: X) hpathall
    · have h2 := explodeSplitHash_at (user ++ '/' :: X) hash hpathall hhash
      simpa using h2
  simp only [explodeHostedGitFragment, hsplit]
  rw [stripUrlProtocol_slash user X hu2, stripUserHost_slash user X hu3, hstrip]
  rw [takeWhile_append_stop user '/' Y hu4 (by decide), List.drop_left]
  simp [takeWhile_all Y hY]
  intro x hx
  have h5 := List.all_eq_true.mp hY x hx
  simpa using h5

/-- C9: composing a hosted-alias specifier body user/repo[.git][#hash]
from a non-empty user and repo free of the delimiters '/', ':', '@', '#'
(the body being a single-line token, its repo and hash contain no line
terminators), explodeHostedGitFragment returns exactly the user, the repo
with a .git suffix stripped, and the raw fragment after '#' (empty when
the fragment is absent). -/
theorem c9_hosted_fragment_roundtrip :
    ∀ (user repo hash : Str) (g h : Bool),
      user ≠ [] →
      user.all (fun c => ¬ (c = '/' ∨ c = ':' ∨ c = '@' ∨ c = '#')) = true →
      repo ≠ [] →
      repo.all (fun c =>
        ¬ (c = '/' ∨ c = ':' ∨ c = '@' ∨ c = '#') ∧ ¬ isJsNl c) = true →
      hash.all (fun c => ¬ isJsNl c) = true →
      explodeHostedGitFragment
        (user ++ '/' :: (repo ++ (if g then str ".git" else []) ++
          (if h then '#' :: hash else [])))
        = .ok ⟨user, if g then repo else stripDotGitEnd repo,
               if h then hash else []⟩ := by
  intro user repo hash g h hu hua hr hra hha
  have huP : ∀ x ∈ user, ¬ (x = '/' ∨ x = ':' ∨ x = '@' ∨ x = '#') := by
    intro x hx
    have h0 := List.all_eq_true.mp hua x hx
    simpa using h0
  have hrPB : ∀ x ∈ repo,
      (¬ (x = '/' ∨ x = ':' ∨ x = '@' ∨ x = '#')) ∧ isJsNl x = false := by
    intro x hx
    have h0 := List.all_eq_true.mp hra x hx
    simpa using h0
  have hrP : ∀ x ∈ repo, ¬ (x = '/' ∨ x = ':' ∨ x = '@' ∨ x = '#') :=
    fun x hx => (hrPB x hx).1
  have hrNl : repo.all (fun c => ¬ isJsNl c) = true :=
    List.all_eq_true.mpr fun x hx => by simp [(hrPB x hx).2]
  have hrH : ∀ x ∈ repo, x ≠ '#' := fun x hx he => hrP x hx (by simp [he])
  cases g
  · cases hge : endsWithL repo (str ".git")
    · have hsr : stripDotGitEnd repo = repo := by
        rw [stripDotGitEnd]; exact removeSuffix_no _ _ hge
      have hstrip : stripDotGitEnd (user ++ '/' :: repo) = user ++ '/' :: repo := by
        rw [stripDotGitEnd]
        exact removeSuffix_no _ _ (endsWith_slash_dotgit user repo hr hge)
      have hcomp := explode_comp user repo repo hash h huP hrH hstrip hrNl hha
      simpa [hsr] using hcomp
    · obtain ⟨r0, rfl⟩ := endsWith_exists repo (str ".git") hge
      have hsr : stripDotGitEnd (r0 ++ str ".git") = r0 := by
        rw [stripDotGitEnd]; exact removeSuffix_append _ _
      have hstrip : stripDotGitEnd (user ++ '/' :: (r0 ++ str ".git")) =
          user ++ '/' :: r0 := by
        rw [stripDotGitEnd,
          show user ++ '/' :: (r0 ++ str ".git") = (user ++ '/' :: r0) ++ str ".git"
            by simp]
        exact removeSuffix_append _ _
      have hr0Nl : r0.all (fun c => ¬ isJsNl c) = true := by
        rw [List.all_append, Bool.and_eq_true] at hrNl
        exact hrNl.1
      have hcomp := explode_comp user (r0 ++ str ".git") r0 hash h huP hrH hstrip
        hr0Nl hha
      simpa [hsr] using hcomp
  · have hstrip : stripDotGitEnd (user ++ '/' :: (repo ++ str ".git")) =
        user ++ '/' :: repo := by
      rw [stripDotGitEnd,
        show user ++ '/' :: (repo ++ str ".git") = (user ++ '/' :: repo) ++ str ".git"
          by simp]
      exact removeSuffix_append _ _
    have hX2 : ∀ x ∈ repo ++ str ".git", x ≠ '#' := by
      intro x hx
      rcases List.mem_append.mp hx with hx | hx
      · exact hrH x hx
      · exact (by decide : ∀ y ∈ str ".git", y ≠ '#') x hx
    have hcomp := explode_comp user (repo ++ str ".git") repo hash h huP hX2 hstrip
      hrNl hha
    simpa using hcomp

theorem c9_hosted_fragment_roundtrip_witness :
    explodeHostedGitFragment (str "user/repo.git#v1.2.3")
      = .ok ⟨str "user", str "repo", str "v1.2.3"⟩ := by
  have h := c9_hosted_fragment_roundtrip (str "user") (str "repo") (str "v1.2.3")
    true true (by decide) (by decide) (by decide) (by decide) (by decide)
  have heq : str "user" ++ '/' :: (str "repo" ++ (if true then str ".git" else []) ++
      (if true then '#' :: str "v1.2.3" else [])) = str "user/repo.git#v1.2.3" := by
    decide
  rw [heq] at h
  simpa using h

/- ### Claim C8: the supportsArchive invariant of the session -/

lemma hasArchive_false_of_not_ssh (probe : GitUrl → Bool) (cache : ArchiveCache)
    (ref : GitUrl) (h : ref.protocol ≠ str "ssh:" ∨ ref.hostname = none) :
    (hasArchiveCapability probe cache ref).1 = false := by
  rcases href : ref.hostname with _ | host
  · simp [hasArchiveCapability, href]
  · rcases h with h | h
    · simp [hasArchiveCapability, href, h]
    · rw [href] at h; cases h

lemma hasArchive_true_shape (probe : GitUrl → Bool) (cache : ArchiveCache)
    (ref : GitUrl) (h : (hasArchiveCapability probe cache ref).1 = true) :
    ref.protocol = str "ssh:" ∧ ref.hostname ≠ none := by
  by_cases hcond : ref.protocol ≠ str "ssh:" ∨ ref.hostname = none
  · rw [hasArchive_false_of_not_ssh probe cache ref hcond] at h
    exact absurd h (by decide)
  · push_neg at hcond
    exact ⟨hcond.1, hcond.2⟩

lemma secure_id_of_other_protocol (repoExists : GitUrl → Bool) (u : GitUrl)
    (hash : Str) (h1 : u.protocol ≠ str "git:") (h2 : u.protocol ≠ str "http:")
    (h3 : u.protocol ≠ str "https:") :
    secureGitUrl repoExists u hash = .ok u := by
  by_cases hc : isCommitSha hash
  · simp [secureGitUrl, hc]
  · simp [secureGitUrl, hc, h1, h2, h3]

/-- C8: in every reachable session state (after the constructor and after
any number of init calls) supportsArchive implies an ssh: protocol and a
non-null hostname; hasArchiveCapability is false for every URL that is not
ssh: with a hostname; and init sets supportsArchive only when
hasArchiveCapability returned true on the secured URL. -/
theorem c8_supports_archive_invariant :
    (∀ (probe : GitUrl → Bool) (cache : ArchiveCache) (ref : GitUrl),
      ref.protocol ≠ str "ssh:" ∨ ref.hostname = none →
      (hasArchiveCapability probe cache ref).1 = false) ∧
    (∀ (gitUrl : GitUrl) (hash : Str),
      (mkGit gitUrl hash).supportsArchive = false) ∧
    (∀ (env : Env) (cache : ArchiveCache) (s : Session)
        (out : Session × ArchiveCache),
      init env cache s = .ok out →
      (s.supportsArchive = true →
        s.gitUrl.protocol = str "ssh:" ∧ s.gitUrl.hostname ≠ none) →
      (out.1.supportsArchive = true →
        out.1.gitUrl.protocol = str "ssh:" ∧ out.1.gitUrl.hostname ≠ none)) ∧
    (∀ (env : Env) (cache : ArchiveCache) (s : Session)
        (out : Session × ArchiveCache),
      init env cache s = .ok out → s.supportsArchive = false →
      out.1.supportsArchive = true →
      (hasArchiveCapability env.archiveProbe cache out.1.gitUrl).1 = true) := by
  refine ⟨hasArchive_false_of_not_ssh, fun _ _ => rfl, ?_, ?_⟩
  · intro env cache s out hrun hinv hsup
    rw [init] at hrun
    cases hsec : secureGitUrl env.repoExists s.gitUrl s.hash with
    | error e => rw [hsec] at hrun; cases hrun
    | ok u2 =>
      rw [hsec] at hrun
      have hpreserve : s.supportsArchive = true →
          u2 = s.gitUrl ∧ s.gitUrl.protocol = str "ssh:" ∧ s.gitUrl.hostname ≠ none := by
        intro hs
        obtain ⟨hssh, hhost⟩ := hinv hs
        have hid := secure_id_of_other_protocol env.repoExists s.gitUrl s.hash
          (by rw [hssh]; decide) (by rw [hssh]; decide) (by rw [hssh]; decide)
        rw [hid] at hsec
        injection hsec with hu2
        exact ⟨hu2.symm, hssh, hhost⟩
      cases hres : resolveVersion env.git env.sv
          (parseRefs (env.lsRemote u2.repository)) s.hash with
      | none => simp only [hres] at hrun; cases hrun
      | some r =>
        simp only [hres] at hrun
        by_cases href : (r.ref.getD [] : Str) ≠ []
        · rw [if_pos href] at hrun
          cases hcap : hasArchiveCapability env.archiveProbe cache
              { s with gitUrl := u2, hash := r.sha, ref := r.ref.getD [] }.gitUrl with
          | mk b c2 =>
            dsimp only at hcap
            cases b
            · rw [hcap] at hrun
              injection hrun with hpair
              rw [← hpair] at hsup ⊢
              dsimp only at hsup ⊢
              obtain ⟨he, hssh, hhost⟩ := hpreserve hsup
              rw [he]
              exact ⟨hssh, hhost⟩
            · rw [hcap] at hrun
              injection hrun with hpair
              rw [← hpair]
              dsimp only
              exact hasArchive_true_shape env.archiveProbe cache u2 (by rw [hcap])
        · rw [if_neg href] at hrun
          injection hrun with hpair
          rw [← hpair] at hsup ⊢
          dsimp only at hsup ⊢
          obtain ⟨he, hssh, hhost⟩ := hpreserve hsup
          rw [he]
          exact ⟨hssh, hhost⟩
  · intro env cache s out hrun hfalse hsup
    rw [init] at hrun
    cases hsec : secureGitUrl env.repoExists s.gitUrl s.hash with
    | error e => rw [hsec] at hrun; cases hrun
    | ok u2 =>
      rw [hsec] at hrun
      cases hres : resolveVersion env.git env.sv
          (parseRefs (env.lsRemote u2.repository)) s.hash with
      | none => simp only [hres] at hrun; cases hrun
      | some r =>
        simp only [hres] at hrun
        by_cases href : (r.ref.getD [] : Str) ≠ []
        · rw [if_pos href] at hrun
          cases hcap : hasArchiveCapability env.archiveProbe cache
              { s with gitUrl := u2, hash := r.sha, ref := r.ref.getD [] }.gitUrl with
          | mk b c2 =>
            dsimp only at hcap
            cases b
            · rw [hcap] at hrun
              injection hrun with hpair
              rw [← hpair] at hsup
              dsimp only at hsup
              rw [hfalse] at hsup
              exact absurd hsup (by decide)
            · rw [hcap] at hrun
              injection hrun with hpair
              rw [← hpair]
              dsimp only
              rw [hcap]
        · rw [if_neg href] at hrun
          injection hrun with hpair
          rw [← hpair] at hsup
          dsimp only at hsup
          rw [hfalse] at hsup
          exact absurd hsup (by decide)

def urlSsh0 : GitUrl :=
  ⟨str "ssh:", some (str "example.com"), str "ssh://git@example.com/a/b.git", none⟩

def envW : Env :=
  ⟨fun _ => true, fun _ => str "aaaaa refs/heads/main", fun _ => true,
   gOracle0, svOracle0⟩

def sessW : Session := mkGit urlSsh0 (str "main")

def outW : Session × ArchiveCache :=
  (⟨urlSsh0, str "aaaaa", str "refs/heads/main", true, false⟩,
   supportsArchiveCacheInit ++ [(str "example.com", true)])

theorem c8_supports_archive_invariant_witness :
    (hasArchiveCapability (fun _ => true) supportsArchiveCacheInit urlHttp0).1 = false ∧
    (mkGit urlGit0 (str "x")).supportsArchive = false ∧
    (outW.1.gitUrl.protocol = str "ssh:" ∧ outW.1.gitUrl.hostname ≠ none) ∧
    (hasArchiveCapability envW.archiveProbe supportsArchiveCacheInit outW.1.gitUrl).1 = true :=
  ⟨c8_supports_archive_invariant.1 (fun _ => true) supportsArchiveCacheInit urlHttp0
      (Or.inl (by decide)),
   c8_supports_archive_invariant.2.1 urlGit0 (str "x"),
   c8_supports_archive_invariant.2.2.1 envW supportsArchiveCacheInit sessW outW
      (by decide) (fun hfalse => absurd hfalse (by decide)) (by decide),
   c8_supports_archive_invariant.2.2.2 envW supportsArchiveCacheInit sessW outW
      (by decide) (by decide) (by decide)⟩

/- ### Claim C6: protocols produced by npmUrlToGitUrl -/

lemma isPrefixOf_cons_ne {a b : Char} (as bs : Str) (h : a ≠ b) :
    (a :: as).isPrefixOf (b :: bs) = false := by
  simp [List.isPrefixOf, h]

lemma pre_bitbucket_ssh (l : Str) :
    (str "bitbucket:").isPrefixOf (str "ssh://" ++ l) = false := by
  simp [str, List.isPrefixOf]

lemma pre_gitlab_ssh (l : Str) :
    (str "gitlab:").isPrefixOf (str "ssh://" ++ l) = false := by
  simp [str, List.isPrefixOf]

lemma pre_github_ssh (l : Str) :
    (str "github:").isPrefixOf (str "ssh://" ++ l) = false := by
  simp [str, List.isPrefixOf]

lemma pre_gitPlus_ssh (l : Str) :
    (str "git+").isPrefixOf (str "ssh://" ++ l) = false := by
  simp [str, List.isPrefixOf]

lemma pre_gitPlus_https (l : Str) :
    (str "git+").isPrefixOf (str "https://" ++ l) = false := by
  simp [str, List.isPrefixOf]

lemma pre_bitbucket_github (l : Str) :
    (str "bitbucket:").isPrefixOf (str "github:" ++ l) = false := by
  simp [str, List.isPrefixOf]

lemma pre_gitlab_github (l : Str) :
    (str "gitlab:").isPrefixOf (str "github:" ++ l) = false := by
  simp [str, List.isPrefixOf]

lemma hostedFind_ssh (l : Str) :
    hostedGitProtocols.find? (fun pr => pr.1.isPrefixOf (str "ssh://" ++ l)) = none := by
  simp [hostedGitProtocols, List.find?, pre_bitbucket_ssh, pre_gitlab_ssh, pre_github_ssh]

lemma hostedFind_github (l : Str) :
    hostedGitProtocols.find? (fun pr => pr.1.isPrefixOf (str "github:" ++ l)) =
      some (str "github:", str "github.com") := by
  simp [hostedGitProtocols, List.find?, pre_bitbucket_github, pre_gitlab_github,
    isPrefixOf_append_self]

lemma urlParse_https_protocol (rest : Str) :
    (urlParse (str "https://" ++ rest)).protocol = some (str "https:") := by
  have h1 : str "https://" ++ rest = ['h','t','t','p','s'] ++ (':' :: ('/' :: '/' :: rest)) := rfl
  have h2 : (['h','t','t','p','s'] ++ (':' :: ('/' :: '/' :: rest))).takeWhile isSchemeChar
      = ['h','t','t','p','s'] :=
    takeWhile_append_stop _ ':' _ (by decide) (by decide)
  simp only [urlParse, h1, h2]
  rw [if_pos ⟨by decide, rfl⟩]
  have hsl : (str "//") <+: ('/' :: '/' :: rest) := ⟨rest, rfl⟩
  simp [hsl]
  decide

lemma urlParse_ssh_protocol (rest : Str) :
    (urlParse (str "ssh://" ++ rest)).protocol = some (str "ssh:") := by
  have h1 : str "ssh://" ++ rest = ['s','s','h'] ++ (':' :: ('/' :: '/' :: rest)) := rfl
  have h2 : (['s','s','h'] ++ (':' :: ('/' :: '/' :: rest))).takeWhile isSchemeChar
      = ['s','s','h'] :=
    takeWhile_append_stop _ ':' _ (by decide) (by decide)
  simp only [urlParse, h1, h2]
  rw [if_pos ⟨by decide, rfl⟩]
  have hsl : (str "//") <+: ('/' :: '/' :: rest) := ⟨rest, rfl⟩
  simp [hsl]
  decide

lemma shorthandTest_ssh (l : Str) : shorthandTest (str "ssh://" ++ l) = false := by
  have h1 : str "ssh://" ++ l = ['s','s','h',':'] ++ ('/' :: ('/' :: l)) := rfl
  have h2 : (['s','s','h',':'] ++ ('/' :: ('/' :: l))).takeWhile (fun c => c ≠ '/')
      = ['s','s','h',':'] :=
    takeWhile_append_stop _ '/' _ (by decide) (by decide)
  simp only [shorthandTest, h1, h2]
  simp [List.drop_left' (by rfl : (['s','s','h',':'] : Str).length = 4), shXFirst, shXCls]

lemma explode_shape (x : Str) :
    explodeHostedGitFragment x = .error invalidHostedGitFragmentMsg ∨
    ∃ f, explodeHostedGitFragment x = .ok f := by
  simp only [explodeHostedGitFragment]
  split
  · right; exact ⟨_, rfl⟩
  · left; rfl

lemma protocol_of_template (host : Str) (f : ExplodedFragment) :
    jsProtocolOrFile (urlParse (stripGitPlusStart (httpsUrlTemplate host f))).protocol
      = str "https:" := by
  have hT : httpsUrlTemplate host f =
      str "https://" ++ (host ++ ('/' :: (f.user ++ ('/' :: (f.repo ++ str ".git"))))) := by
    simp [httpsUrlTemplate]
  rw [hT, stripGitPlusStart, if_neg (by simp [pre_gitPlus_https]),
    urlParse_https_protocol]
  decide

set_option maxHeartbeats 2000000 in
lemma resolveHosted_error_shape (x e : Str)
    (h : resolveHostedGitPattern x = .error e) : e = invalidHostedGitFragmentMsg := by
  rw [resolveHostedGitPattern] at h
  by_cases hsh : shorthandTest x
  · rw [if_pos hsh] at h
    simp only [hostedFind_github x] at h
    rcases explode_shape ((str "github:" ++ x).drop (str "github:" : Str).length)
        with hy | ⟨f, hy⟩
    · simp only [hy] at h
      injection h with h2
      exact h2.symm
    · simp only [hy] at h
      exact Except.noConfusion h
  · rw [if_neg hsh] at h
    cases hfind : hostedGitProtocols.find? (fun pr => pr.1.isPrefixOf x) with
    | none =>
      simp only [hfind] at h
      exact Except.noConfusion h
    | some pr =>
      simp only [hfind] at h
      rcases explode_shape (x.drop pr.1.length) with hy | ⟨f, hy⟩
      · simp only [hy] at h
        injection h with h2
        exact h2.symm
      · simp only [hy] at h
        exact Except.noConfusion h

set_option maxHeartbeats 2000000 in
lemma resolveHosted_ok_shape (x : Str) (ph : Str × Option ExplodedFragment)
    (h : resolveHostedGitPattern x = .ok ph) :
    (∃ host f, ph.1 = httpsUrlTemplate host f) ∨ ph.1 = x := by
  rw [resolveHostedGitPattern] at h
  by_cases hsh : shorthandTest x
  · rw [if_pos hsh] at h
    simp only [hostedFind_github x] at h
    rcases explode_shape ((str "github:" ++ x).drop (str "github:" : Str).length)
        with hy | ⟨f, hy⟩
    · simp only [hy] at h
      exact Except.noConfusion h
    · simp only [hy] at h
      injection h with h2
      exact Or.inl ⟨str "github.com", f, by rw [← h2]⟩
  · rw [if_neg hsh] at h
    cases hfind : hostedGitProtocols.find? (fun pr => pr.1.isPrefixOf x) with
    | none =>
      simp only [hfind] at h
      injection h with h2
      exact Or.inr (by rw [← h2])
    | some pr =>
      simp only [hfind] at h
      rcases explode_shape (x.drop pr.1.length) with hy | ⟨f, hy⟩
      · simp only [hy] at h
        exact Except.noConfusion h
      · simp only [hy] at h
        injection h with h2
        exact Or.inl ⟨pr.2, f, by rw [← h2]⟩

set_option maxHeartbeats 2000000 in
lemma npmRest_protocol (s : Str) :
    npmUrlToGitUrlRest s = .error invalidHostedGitFragmentMsg ∨
    ∃ g, npmUrlToGitUrlRest s = .ok g ∧
      (g.protocol = str "ssh:" ∨ g.protocol = str "https:" ∨
       g.protocol = jsProtocolOrFile (urlParse (stripGitPlusStart s)).protocol) := by
  rw [npmUrlToGitUrlRest]
  by_cases hg : gitNoProtoTest s
  · rw [if_pos hg]
    have hres : resolveHostedGitPattern (str "ssh://" ++ s) =
        .ok (str "ssh://" ++ s, none) := by
      rw [resolveHostedGitPattern]
      simp [shorthandTest_ssh s, hostedFind_ssh s]
    simp only [hres]
    refine Or.inr ⟨_, rfl, Or.inl ?_⟩
    show jsProtocolOrFile (urlParse (stripGitPlusStart (str "ssh://" ++ s))).protocol
      = str "ssh:"
    rw [stripGitPlusStart, if_neg (by simp [pre_gitPlus_ssh]), urlParse_ssh_protocol]
    decide
  · rw [if_neg hg]
    cases hres : resolveHostedGitPattern s with
    | error e =>
      simp only [hres]
      rw [resolveHosted_error_shape s e hres]
      exact Or.inl rfl
    | ok ph =>
      simp only [hres]
      rcases resolveHosted_ok_shape s ph hres with ⟨host, f, hph⟩ | hph
      · refine Or.inr ⟨_, rfl, Or.inr (Or.inl ?_)⟩
        show jsProtocolOrFile (urlParse (stripGitPlusStart ph.1)).protocol = str "https:"
        rw [hph]
        exact protocol_of_template host f
      · refine Or.inr ⟨_, rfl, Or.inr (Or.inr ?_)⟩
        show jsProtocolOrFile (urlParse (stripGitPlusStart ph.1)).protocol
          = jsProtocolOrFile (urlParse (stripGitPlusStart s)).protocol
        rw [hph]

/-- C6 (amended): for every specifier recognized by isGitPattern,
npmUrlToGitUrl either raises the invalid-hosted-git-fragment MessageError
or succeeds with a GitUrl whose protocol is ssh: (scp-like and bare-git@
forms), https: (hosted aliases and the github shorthand), or the
specifier's own parsed scheme after stripping a leading git+, with file:
as the no-scheme default — in particular a recognized scheme whenever the
specifier's scheme is one of ssh, git, http, https, file (optionally
git+-prefixed) or absent. -/
theorem c6_normalize_protocol :
    ∀ s : Str, isGitPattern s = true →
      npmUrlToGitUrl s = .error invalidHostedGitFragmentMsg ∨
      ∃ g, npmUrlToGitUrl s = .ok g ∧
        (g.protocol = str "ssh:" ∨ g.protocol = str "https:" ∨
         g.protocol = jsProtocolOrFile (urlParse (stripGitPlusStart s)).protocol) := by
  intro s _
  rw [npmUrlToGitUrl]
  split
  · split
    · exact Or.inr ⟨_, rfl, Or.inl rfl⟩
    · exact npmRest_protocol s
  · exact npmRest_protocol s

theorem c6_normalize_protocol_witness :
    isGitPattern (str "user/repo") = true ∧
    (npmUrlToGitUrl (str "user/repo") = .error invalidHostedGitFragmentMsg ∨
      ∃ g, npmUrlToGitUrl (str "user/repo") = .ok g ∧
        (g.protocol = str "ssh:" ∨ g.protocol = str "https:" ∨
         g.protocol = jsProtocolOrFile
           (urlParse (stripGitPlusStart (str "user/repo"))).protocol)) :=
  ⟨by decide, c6_normalize_protocol (str "user/repo") (by decide)⟩

/-- C6 counterexample: "github:x" is recognized by isGitPattern via the
hosted-protocol rule, but npmUrlToGitUrl throws the invalid-hosted-git-
fragment MessageError on it (the fragment has no user/repo separator), so
normalization of recognized patterns does not always succeed. -/
theorem c6_normalize_protocol_cex :
    isGitPattern (str "github:x") = true ∧
    npmUrlToGitUrl (str "github:x") = .error invalidHostedGitFragmentMsg := by
  decide

end Yarn
